import Mathlib

/-!
Shallow embedding of the Kangaroux/go-quadtree repository (the quad tree with a
`maxDepth` budget, file `quadtree.go`) together with proofs about its claims.

Modelling conventions:
* Go `int` is modelled as unbounded `Int`; overflow of `min.Add(max)` at the
  extreme ends of the 64-bit range is out of scope.
* Go `image.Point` / `image.Rectangle` and the methods the repository uses
  (`Add`, `Div`, `In`, `Canon`, `Empty`, `Overlaps`) are embedded below with the
  exact arithmetic of the Go standard library; Go division truncates toward
  zero, i.e. `Int.tdiv`.
* `panic` is modelled as the `Except` error value `Fail.panic`; fallible code
  returns `Except Fail _` or `Option _`.
* The mutating methods on `*qTree` are modelled by state passing: they return
  the updated tree next to the Go return value.
* `qTree.insert` recurses through freshly subdivided children, so a fuel
  argument makes it structurally recursive; `Fail.fuelOut` marks fuel
  exhaustion and is proved unreachable for well-formed trees given the fuel
  that the wrappers supply.
-/

namespace Quadtree

/-- 2D integer point, embedding Go `image.Point`. -/
structure Point where
  X : Int
  Y : Int
deriving DecidableEq, Repr

/-- Axis-aligned rectangle, embedding Go `image.Rectangle` (min corner
inclusive, max corner exclusive). -/
structure Rect where
  Min : Point
  Max : Point
deriving DecidableEq, Repr

/-- Go `image.Point.Add`. -/
def Point.Add (p q : Point) : Point := ⟨p.X + q.X, p.Y + q.Y⟩

/-- Go `image.Point.Div`: componentwise division; Go `/` on `int` truncates
toward zero, which is `Int.tdiv`. -/
def Point.Div (p : Point) (k : Int) : Point := ⟨Int.tdiv p.X k, Int.tdiv p.Y k⟩

/-- Go `image.Point.In`: `r.Min.X <= p.X && p.X < r.Max.X && r.Min.Y <= p.Y
&& p.Y < r.Max.Y`. -/
def Point.In (p : Point) (r : Rect) : Bool :=
  decide (r.Min.X ≤ p.X ∧ p.X < r.Max.X ∧ r.Min.Y ≤ p.Y ∧ p.Y < r.Max.Y)

/-- Go `image.Rectangle.Canon`: swaps the corners on each axis so that
`Min ≤ Max` holds componentwise. -/
def Rect.Canon (r : Rect) : Rect :=
  let r1 : Rect :=
    if r.Max.X < r.Min.X then ⟨⟨r.Max.X, r.Min.Y⟩, ⟨r.Min.X, r.Max.Y⟩⟩ else r
  if r1.Max.Y < r1.Min.Y then ⟨⟨r1.Min.X, r1.Max.Y⟩, ⟨r1.Max.X, r1.Min.Y⟩⟩ else r1

/-- Go `image.Rectangle.Empty`: `r.Min.X >= r.Max.X || r.Min.Y >= r.Max.Y`. -/
def Rect.Empty (r : Rect) : Bool :=
  decide (r.Min.X ≥ r.Max.X ∨ r.Min.Y ≥ r.Max.Y)

/-- Go `image.Rectangle.Overlaps`. -/
def Rect.Overlaps (r s : Rect) : Bool :=
  !r.Empty && !s.Empty &&
    decide (r.Min.X < s.Max.X ∧ s.Min.X < r.Max.X ∧ r.Min.Y < s.Max.Y ∧ s.Min.Y < r.Max.Y)

/-- Element of the quad tree: Go `qElement` — a point and an uninterpreted value.
`Point()` and `Value()` are the structure projections `p` and `val`. -/
structure QElement (α : Type) where
  p : Point
  val : α
deriving DecidableEq, Repr

/-- Go `qTree`: bucket size, optional children (nil before subdividing, the
four subdivision results afterwards), remaining depth budget, element bucket,
and bounds. -/
inductive QTree (α : Type) : Type where
  | mk (bucketSize : Int) (children : Option (List (QTree α)))
      (depthRemaining : Int) (elements : List (QElement α)) (bounds : Rect)
deriving Repr

/-- Field accessor for `bucketSize`. -/
def QTree.bucketSize {α : Type} : QTree α → Int
  | .mk k _ _ _ _ => k

/-- Field accessor for `children`. -/
def QTree.children {α : Type} : QTree α → Option (List (QTree α))
  | .mk _ ch _ _ _ => ch

/-- Field accessor for `depthRemaining`. -/
def QTree.depthRemaining {α : Type} : QTree α → Int
  | .mk _ _ d _ _ => d

/-- Field accessor for `elements`. -/
def QTree.elements {α : Type} : QTree α → List (QElement α)
  | .mk _ _ _ es _ => es

/-- Field accessor for `bounds`; this is also the Go method `qTree.Bounds`. -/
def QTree.bounds {α : Type} : QTree α → Rect
  | .mk _ _ _ _ b => b

/-- Go `newQuadTree(bounds, bucketSize, maxDepth)`: panics (modelled as
`none`) when `bucketSize < 1`, when `maxDepth < 0`, or when the canonicalized
bounds is empty; otherwise builds the empty leaf node. -/
def newQuadTree {α : Type} (bounds : Rect) (bucketSize maxDepth : Int) :
    Option (QTree α) :=
  if bucketSize < 1 then none
  else if maxDepth < 0 then none
  else
    let bounds := bounds.Canon
    if bounds.Empty then none
    else some (.mk bucketSize none maxDepth [] bounds)

/-- Go `NewQuadTree` simply calls `newQuadTree`. -/
def NewQuadTree {α : Type} (bounds : Rect) (bucketSize maxDepth : Int) :
    Option (QTree α) :=
  newQuadTree bounds bucketSize maxDepth

/-- Go `qTree.InBounds(p)`: `p.In(t.bounds)`. -/
def QTree.InBounds {α : Type} (t : QTree α) (p : Point) : Bool :=
  p.In t.bounds

/-- The four quadrant rectangles built inline by `qTree.subdivide`, in the
source's order NW, NE, SW, SE, with `center := min.Add(max).Div(2)`. -/
def quadRects (r : Rect) : List Rect :=
  let mn := r.Min
  let mx := r.Max
  let center := (mn.Add mx).Div 2
  [⟨mn, center⟩,
    ⟨⟨center.X, mn.Y⟩, ⟨mx.X, center.Y⟩⟩,
    ⟨⟨mn.X, center.Y⟩, ⟨center.X, mx.Y⟩⟩,
    ⟨center, mx⟩]

/-- Go `qTree.subdivide`: creates the four quadrant subtrees through
`newQuadTree`, each inheriting `bucketSize` and `depthRemaining - 1`.
`none` models the panic that `newQuadTree` raises on a degenerate quadrant. -/
def QTree.subdivide {α : Type} (t : QTree α) : Option (List (QTree α)) :=
  (quadRects t.bounds).mapM fun q => newQuadTree q t.bucketSize (t.depthRemaining - 1)

/-- Failure modes of the embedding: a Go `panic`, or running out of the fuel
that makes the recursion structural. -/
inductive Fail where
  | panic
  | fuelOut
deriving DecidableEq, Repr

mutual

/-- Go `qTree.insert(element)` with explicit state threading and fuel.
Returns the updated tree together with the Go boolean result. -/
def QTree.insert {α : Type} : Nat → QTree α → QElement α → Except Fail (QTree α × Bool)
  | 0, _, _ => .error .fuelOut
  | fuel+1, .mk k ch d es b, element =>
    if !((QTree.mk k ch d es b).InBounds element.p) then
      .ok (.mk k ch d es b, false)
    else
      match ch with
      | some cs => do
        let r ← QTree.insertList fuel cs element
        pure (.mk k (some r.1) d es b, true)
      | none =>
        if d = 0 ∨ (es.length : Int) < k then
          .ok (.mk k none d (es ++ [element]) b, true)
        else
          match (QTree.mk k none d es b).subdivide with
          | none => .error .panic
          | some cs => do
            let leaves := es ++ [element]
            let cs' ← QTree.insertAll fuel cs leaves
            pure (.mk k (some cs') d [] b, true)

/-- The `for _, child := range t.children { if child.insert(leaf) { break } }`
loop of `qTree.insert`: tries the children in order, stopping at the first
success; returns the updated children and whether any insert succeeded. -/
def QTree.insertList {α : Type} : Nat → List (QTree α) → QElement α →
    Except Fail (List (QTree α) × Bool)
  | 0, _, _ => .error .fuelOut
  | _+1, [], _ => .ok ([], false)
  | fuel+1, c :: cs, element => do
    let r ← QTree.insert fuel c element
    if r.2 then
      pure (r.1 :: cs, true)
    else do
      let rest ← QTree.insertList fuel cs element
      pure (r.1 :: rest.1, rest.2)

/-- The redistribution loop of `qTree.insert`: after subdividing, re-inserts
every leaf of `leaves` into the children (the boolean result is ignored,
exactly as in the source). -/
def QTree.insertAll {α : Type} : Nat → List (QTree α) → List (QElement α) →
    Except Fail (List (QTree α))
  | 0, _, _ => .error .fuelOut
  | _+1, cs, [] => .ok cs
  | fuel+1, cs, leaf :: leaves => do
    let r ← QTree.insertList fuel cs leaf
    QTree.insertAll fuel r.1 leaves

end

/-- Fuel that suffices for `insert` on a well-formed tree (proved below). -/
def insertFuel {α : Type} (t : QTree α) : Nat :=
  (t.bucketSize.toNat + 6) * t.depthRemaining.toNat + 1

/-- Go `qTree.Insert(p, val)`: wraps the point and value into an element and
calls `insert`. -/
def QTree.Insert {α : Type} (t : QTree α) (p : Point) (val : α) :
    Except Fail (QTree α × Bool) :=
  QTree.insert (insertFuel t) t ⟨p, val⟩

mutual

/-- Go `qTree.Select(rect)`. The source's slice plumbing (the `[]QElement{}`
accumulator, skipping empty child results before appending, the final
`len == 0` nil return, and the leaf copy into `leafElements`) is the identity
on the returned list and is elided; `nil` is modelled as `[]`. -/
def QTree.Select {α : Type} : QTree α → Rect → List (QElement α)
  | .mk _ ch _ es b, rect =>
    if !(b.Overlaps rect) then []
    else
      match ch with
      | none => es
      | some cs => QTree.selectList cs rect

/-- The `for _, child := range t.children` loop of `qTree.Select`: appends the
child results in order. -/
def QTree.selectList {α : Type} : List (QTree α) → Rect → List (QElement α)
  | [], _ => []
  | c :: cs, rect => c.Select rect ++ QTree.selectList cs rect

end

mutual

/-- `qTree.Select` with explicit state threading: returns the tree next to the
result list, making the read-only character of the traversal a statement
rather than a convention. -/
def QTree.SelectSt {α : Type} : QTree α → Rect → QTree α × List (QElement α)
  | .mk k ch d es b, rect =>
    if !(b.Overlaps rect) then (.mk k ch d es b, [])
    else
      match ch with
      | none => (.mk k none d es b, es)
      | some cs =>
        let r := QTree.selectStList cs rect
        (.mk k (some r.1) d es b, r.2)

/-- State-threaded form of the child loop of `qTree.Select`. -/
def QTree.selectStList {α : Type} : List (QTree α) → Rect →
    List (QTree α) × List (QElement α)
  | [], _ => ([], [])
  | c :: cs, rect =>
    let r1 := c.SelectSt rect
    let r2 := QTree.selectStList cs rect
    (r1.1 :: r2.1, r1.2 ++ r2.2)

end

mutual

/-- Every element stored anywhere in the tree, in traversal order. -/
def QTree.allElements {α : Type} : QTree α → List (QElement α)
  | .mk _ none _ es _ => es
  | .mk _ (some cs) _ es _ => es ++ QTree.allElementsList cs

/-- Every element stored in a list of subtrees. -/
def QTree.allElementsList {α : Type} : List (QTree α) → List (QElement α)
  | [] => []
  | c :: cs => c.allElements ++ QTree.allElementsList cs

end

/-- Well-formedness invariant satisfied by every tree reachable from
`newQuadTree` through `insert` (proved below): positive bucket size,
nonnegative depth, nonempty canonical bounds, elements inside the bounds, the
bucket bound on leaves that can still subdivide, and, for internal nodes, an
empty bucket and exactly the four quadrant children produced by `subdivide`. -/
inductive WF {α : Type} : QTree α → Prop where
  | node {k : Int} {ch : Option (List (QTree α))} {d : Int}
      {es : List (QElement α)} {b : Rect} :
      1 ≤ k → 0 ≤ d → b.Empty = false →
      (∀ e ∈ es, e.p.In b = true) →
      (ch = none → d ≠ 0 → (es.length : Int) ≤ k) →
      (∀ cs, ch = some cs →
        es = [] ∧ 1 ≤ d ∧ cs.map QTree.bounds = quadRects b ∧
        ∀ c ∈ cs, c.bucketSize = k ∧ c.depthRemaining = d - 1) →
      (∀ cs, ch = some cs → ∀ c ∈ cs, WF c) →
      WF (.mk k ch d es b)

/-- Folding `Insert` over a list of point/value pairs, propagating panics and
fuel exhaustion as `none`; the per-call boolean results are dropped. -/
def insertSeq {α : Type} : QTree α → List (Point × α) → Option (QTree α)
  | t, [] => some t
  | t, pv :: pvs =>
    match t.Insert pv.1 pv.2 with
    | .ok (t', _) => insertSeq t' pvs
    | .error _ => none

mutual

/-- Number of nodes of the tree, used as an induction measure. -/
def QTree.size {α : Type} : QTree α → Nat
  | .mk _ none _ _ _ => 1
  | .mk _ (some cs) _ _ _ => QTree.sizeList cs + 1

/-- Number of nodes of a list of subtrees. -/
def QTree.sizeList {α : Type} : List (QTree α) → Nat
  | [] => 0
  | c :: cs => c.size + QTree.sizeList cs

end

/-- The multiset of all elements stored in the tree. -/
def elemsM {α : Type} (t : QTree α) : Multiset (QElement α) :=
  (t.allElements : Multiset (QElement α))

/-- The multiset of all elements stored in a list of subtrees. -/
def elemsML {α : Type} (cs : List (QTree α)) : Multiset (QElement α) :=
  (QTree.allElementsList cs : Multiset (QElement α))

/-- Two trees with the same bounds, bucket size and depth budget; `insert`
preserves this shape of the node it is called on. -/
def SameShape {α : Type} (t t' : QTree α) : Prop :=
  t'.bounds = t.bounds ∧ t'.bucketSize = t.bucketSize ∧
    t'.depthRemaining = t.depthRemaining

/-- Fuel that suffices for `insertList` on a list of well-formed trees. -/
def listFuel {α : Type} : List (QTree α) → Nat
  | [] => 1
  | c :: cs => max (insertFuel c) (listFuel cs) + 1

/-- Relation between a tree and its updated version after an insert: the
shape (bounds, bucket size, depth budget) is preserved and the update is well
formed. -/
def ShapeWF {α : Type} (c c' : QTree α) : Prop :=
  SameShape c c' ∧ WF c'

/-- `r1` lies inside `r2`, componentwise on the corners. -/
def SubRect (r1 r2 : Rect) : Prop :=
  r2.Min.X ≤ r1.Min.X ∧ r1.Max.X ≤ r2.Max.X ∧
    r2.Min.Y ≤ r1.Min.Y ∧ r1.Max.Y ≤ r2.Max.Y

/-- `Subtree s t`: the node `s` occurs in the tree `t` (reflexively, or inside
one of the children of an internal node). -/
inductive Subtree {α : Type} : QTree α → QTree α → Prop where
  | refl (t : QTree α) : Subtree t t
  | step {s c : QTree α} {cs : List (QTree α)} {k d : Int}
      {es : List (QElement α)} {b : Rect} :
      c ∈ cs → Subtree s c → Subtree s (.mk k (some cs) d es b)

/-! Basic lemmas about the embedded `image` package arithmetic. -/

/-- Go division by two, expressed through Lean's Euclidean division. -/
theorem tdiv_two_eq (a : Int) : Int.tdiv a 2 = if 0 ≤ a then a / 2 else -((-a) / 2) := by
  rcases a with n | n
  · simp [Int.tdiv]
  · simp [Int.tdiv, Int.negSucc_eq]
    omega

/-- The truncated midpoint lies between the endpoints. -/
theorem tdiv_two_between {a b : Int} (h : a ≤ b) :
    a ≤ Int.tdiv (a + b) 2 ∧ Int.tdiv (a + b) 2 ≤ b := by
  rw [tdiv_two_eq]
  split <;> omega

/-- Membership in a rectangle, unfolded. -/
theorem Point.In_iff {p : Point} {r : Rect} :
    p.In r = true ↔
      r.Min.X ≤ p.X ∧ p.X < r.Max.X ∧ r.Min.Y ≤ p.Y ∧ p.Y < r.Max.Y := by
  simp [Point.In]

/-- Nonemptiness of a rectangle, unfolded. -/
theorem Rect.Empty_false_iff {r : Rect} :
    r.Empty = false ↔ r.Min.X < r.Max.X ∧ r.Min.Y < r.Max.Y := by
  simp only [Rect.Empty, decide_eq_false_iff_not]
  omega

/-- Overlap of rectangles, unfolded. -/
theorem Rect.Overlaps_iff {r s : Rect} :
    r.Overlaps s = true ↔
      r.Empty = false ∧ s.Empty = false ∧
        r.Min.X < s.Max.X ∧ s.Min.X < r.Max.X ∧
        r.Min.Y < s.Max.Y ∧ s.Min.Y < r.Max.Y := by
  simp [Rect.Overlaps, Rect.Empty]
  omega

/-- Canonicalization leaves an already ordered rectangle unchanged. -/
theorem Rect.Canon_eq_self {r : Rect} (h1 : r.Min.X ≤ r.Max.X)
    (h2 : r.Min.Y ≤ r.Max.Y) : r.Canon = r := by
  simp only [Rect.Canon]
  split_ifs <;> first | rfl | omega

/-- Canonicalization orders the corners on both axes. -/
theorem Rect.Canon_ordered (r : Rect) :
    (r.Canon).Min.X ≤ (r.Canon).Max.X ∧ (r.Canon).Min.Y ≤ (r.Canon).Max.Y := by
  obtain ⟨⟨mnx, mny⟩, ⟨mxx, mxy⟩⟩ := r
  simp only [Rect.Canon]
  split_ifs <;> dsimp only at * <;> omega

/-- A nonempty subrectangle overlaps any rectangle containing it. -/
theorem overlaps_of_subRect {r q : Rect} (h : SubRect r q) (hne : r.Empty = false) :
    r.Overlaps q = true := by
  obtain ⟨h1, h2, h3, h4⟩ := h
  rw [Rect.Empty_false_iff] at hne
  rw [Rect.Overlaps_iff, Rect.Empty_false_iff, Rect.Empty_false_iff]
  omega

/-- `SubRect` is transitive. -/
theorem SubRect.trans {r s q : Rect} (h1 : SubRect r s) (h2 : SubRect s q) :
    SubRect r q := by
  obtain ⟨a1, a2, a3, a4⟩ := h1
  obtain ⟨b1, b2, b3, b4⟩ := h2
  exact ⟨by omega, by omega, by omega, by omega⟩

/-- `SubRect` is reflexive. -/
theorem SubRect.refl (r : Rect) : SubRect r r :=
  ⟨le_refl _, le_refl _, le_refl _, le_refl _⟩

/-! Lemmas about the four quadrants built by `subdivide`. -/

/-- Every point of the parent's bounds lies in at least one quadrant. -/
theorem quadRects_cover {r : Rect} {p : Point}
    (hr : r.Min.X ≤ r.Max.X ∧ r.Min.Y ≤ r.Max.Y) (hp : p.In r = true) :
    ∃ q ∈ quadRects r, p.In q = true := by
  obtain ⟨⟨mnx, mny⟩, ⟨mxx, mxy⟩⟩ := r
  rw [Point.In_iff] at hp
  dsimp only at hp hr
  have hx := tdiv_two_between hr.1
  have hy := tdiv_two_between hr.2
  simp only [quadRects, Point.Add, Point.Div]
  by_cases hpx : p.X < Int.tdiv (mnx + mxx) 2 <;>
    by_cases hpy : p.Y < Int.tdiv (mny + mxy) 2
  · refine ⟨⟨⟨mnx, mny⟩, ⟨Int.tdiv (mnx + mxx) 2, Int.tdiv (mny + mxy) 2⟩⟩,
      by simp, ?_⟩
    rw [Point.In_iff]
    dsimp only
    omega
  · refine ⟨⟨⟨mnx, Int.tdiv (mny + mxy) 2⟩, ⟨Int.tdiv (mnx + mxx) 2, mxy⟩⟩,
      by simp, ?_⟩
    rw [Point.In_iff]
    dsimp only
    omega
  · refine ⟨⟨⟨Int.tdiv (mnx + mxx) 2, mny⟩, ⟨mxx, Int.tdiv (mny + mxy) 2⟩⟩,
      by simp, ?_⟩
    rw [Point.In_iff]
    dsimp only
    omega
  · refine ⟨⟨⟨Int.tdiv (mnx + mxx) 2, Int.tdiv (mny + mxy) 2⟩, ⟨mxx, mxy⟩⟩,
      by simp, ?_⟩
    rw [Point.In_iff]
    dsimp only
    omega

/-- Every point of the parent's bounds lies in exactly one quadrant: the
quadrants tile the parent with no gap and no overlap. -/
theorem quadRects_countP_one {r : Rect} {p : Point}
    (hr : r.Min.X ≤ r.Max.X ∧ r.Min.Y ≤ r.Max.Y) (hp : p.In r = true) :
    (quadRects r).countP (fun q => p.In q) = 1 := by
  obtain ⟨⟨mnx, mny⟩, ⟨mxx, mxy⟩⟩ := r
  rw [Point.In_iff] at hp
  dsimp only at hp hr
  have hx := tdiv_two_between hr.1
  have hy := tdiv_two_between hr.2
  simp only [quadRects, Point.Add, Point.Div, List.countP_cons, List.countP_nil,
    Point.In, decide_eq_true_eq]
  split_ifs <;> omega

/-- Each quadrant lies inside the parent's bounds. -/
theorem quadRects_sub {r : Rect}
    (hr : r.Min.X ≤ r.Max.X ∧ r.Min.Y ≤ r.Max.Y) :
    ∀ q ∈ quadRects r, SubRect q r := by
  obtain ⟨⟨mnx, mny⟩, ⟨mxx, mxy⟩⟩ := r
  dsimp only at hr
  have hx := tdiv_two_between hr.1
  have hy := tdiv_two_between hr.2
  intro q hq
  simp only [quadRects, Point.Add, Point.Div, List.mem_cons, List.not_mem_nil,
    or_false] at hq
  rcases hq with rfl | rfl | rfl | rfl <;>
    exact ⟨by dsimp only; omega, by dsimp only; omega, by dsimp only; omega,
      by dsimp only; omega⟩

/-- Each quadrant has ordered corners, hence canonicalizes to itself. -/
theorem quadRects_canon {r : Rect}
    (hr : r.Min.X ≤ r.Max.X ∧ r.Min.Y ≤ r.Max.Y) :
    ∀ q ∈ quadRects r, q.Canon = q := by
  obtain ⟨⟨mnx, mny⟩, ⟨mxx, mxy⟩⟩ := r
  dsimp only at hr
  have hx := tdiv_two_between hr.1
  have hy := tdiv_two_between hr.2
  intro q hq
  simp only [quadRects, Point.Add, Point.Div, List.mem_cons, List.not_mem_nil,
    or_false] at hq
  rcases hq with rfl | rfl | rfl | rfl <;>
    exact Rect.Canon_eq_self (by dsimp only; omega) (by dsimp only; omega)

/-! Characterization of the constructor and of `subdivide`. -/

/-- What a successful `newQuadTree` returns. -/
theorem newQuadTree_eq_some {α : Type} {b : Rect} {k d : Int} {t : QTree α}
    (h : newQuadTree b k d = some t) :
    1 ≤ k ∧ 0 ≤ d ∧ (b.Canon).Empty = false ∧
      t = .mk k none d [] b.Canon := by
  simp only [newQuadTree] at h
  by_cases h1 : k < 1
  · rw [if_pos h1] at h; cases h
  rw [if_neg h1] at h
  by_cases h2 : d < 0
  · rw [if_pos h2] at h; cases h
  rw [if_neg h2] at h
  by_cases h3 : (b.Canon).Empty
  · rw [if_pos h3] at h; cases h
  · rw [if_neg h3] at h
    injection h with h
    exact ⟨by omega, by omega, by simpa using h3, h.symm⟩

/-- When `newQuadTree` fails. -/
theorem newQuadTree_eq_none {α : Type} {b : Rect} {k d : Int}
    (h : (newQuadTree b k d : Option (QTree α)) = none) :
    k < 1 ∨ d < 0 ∨ (b.Canon).Empty = true := by
  simp only [newQuadTree] at h
  by_cases h1 : k < 1
  · exact Or.inl h1
  rw [if_neg h1] at h
  by_cases h2 : d < 0
  · exact Or.inr (Or.inl h2)
  rw [if_neg h2] at h
  by_cases h3 : (b.Canon).Empty
  · exact Or.inr (Or.inr h3)
  · rw [if_neg h3] at h; cases h

/-- `newQuadTree` succeeds on valid arguments. -/
theorem newQuadTree_eq_some_of {α : Type} {b : Rect} {k d : Int}
    (h1 : 1 ≤ k) (h2 : 0 ≤ d) (h3 : (b.Canon).Empty = false) :
    (newQuadTree b k d : Option (QTree α)) = some (.mk k none d [] b.Canon) := by
  simp only [newQuadTree]
  rw [if_neg (by omega), if_neg (by omega), if_neg (by simp [h3])]

/-- A tree returned by `newQuadTree` is well formed. -/
theorem newQuadTree_WF {α : Type} {b : Rect} {k d : Int} {t : QTree α}
    (h : newQuadTree b k d = some t) : WF t := by
  obtain ⟨h1, h2, h3, rfl⟩ := newQuadTree_eq_some h
  exact WF.node h1 h2 h3 (by simp) (by intro _ _; simp; omega)
    (by intro cs hcs; cases hcs) (by intro cs hcs; cases hcs)

/-! Generic facts about `List.mapM` over `Option`, and about `Forall₂`. -/

/-- A successful `Option`-valued `mapM` relates input and output pointwise. -/
theorem mapM_option_forall₂ {β γ : Type} {f : β → Option γ} :
    ∀ {l : List β} {res : List γ}, l.mapM f = some res →
      List.Forall₂ (fun x y => f x = some y) l res := by
  intro l
  induction l with
  | nil =>
    intro res h
    rw [List.mapM_nil] at h
    cases h
    exact .nil
  | cons a l ih =>
    intro res h
    rw [List.mapM_cons] at h
    simp only [bind, Option.bind_eq_some, pure, Option.some.injEq] at h
    obtain ⟨x, hx, xs, hxs, rfl⟩ := h
    exact .cons hx (ih hxs)

/-- A pointwise functional `Forall₂` is a `map`. -/
theorem forall₂_fun_eq_map {β γ : Type} {g : β → γ} :
    ∀ {l : List β} {res : List γ},
      List.Forall₂ (fun x y => y = g x) l res → res = l.map g := by
  intro l
  induction l with
  | nil => intro res h; cases h; rfl
  | cons a l ih =>
    intro res h
    cases h with
    | cons h1 h2 => simp [ih h2, h1]

/-- `ShapeWF` lists preserve the bounds pointwise. -/
theorem forall₂_shape_map_bounds {α : Type} :
    ∀ {cs cs' : List (QTree α)}, List.Forall₂ ShapeWF cs cs' →
      cs'.map QTree.bounds = cs.map QTree.bounds := by
  intro cs
  induction cs with
  | nil => intro cs' h; cases h; rfl
  | cons c cs ih =>
    intro cs' h
    cases h with
    | cons h1 h2 => simp [ih h2, h1.1.1]

/-- `ShapeWF` lists preserve the bucket size and depth of each member. -/
theorem forall₂_shape_props {α : Type} {k d : Int} :
    ∀ {cs cs' : List (QTree α)}, List.Forall₂ ShapeWF cs cs' →
      (∀ c ∈ cs, c.bucketSize = k ∧ c.depthRemaining = d) →
      ∀ c' ∈ cs', c'.bucketSize = k ∧ c'.depthRemaining = d := by
  intro cs
  induction cs with
  | nil => intro cs' h _; cases h; intro c' hc'; cases hc'
  | cons c cs ih =>
    intro cs' h hp
    cases h with
    | cons h1 h2 =>
      intro c' hc'
      rcases hc' with _ | hc'
      · have := hp c (by simp)
        exact ⟨h1.1.2.1.trans this.1, h1.1.2.2.trans this.2⟩
      · exact ih h2 (fun x hx => hp x (by simp [hx])) _ (by assumption)

/-- The right-hand members of a `ShapeWF` list are well formed. -/
theorem forall₂_shape_wf {α : Type} :
    ∀ {cs cs' : List (QTree α)}, List.Forall₂ ShapeWF cs cs' →
      ∀ c' ∈ cs', WF c' := by
  intro cs
  induction cs with
  | nil => intro cs' h c' hc'; cases h; cases hc'
  | cons c cs ih =>
    intro cs' h c' hc'
    cases h with
    | cons h1 h2 =>
      rcases hc' with _ | hc'
      · exact h1.2
      · exact ih h2 _ (by assumption)

/-- `ShapeWF` lists preserve the `any InBounds` test. -/
theorem forall₂_shape_any {α : Type} {p : Point} :
    ∀ {cs cs' : List (QTree α)}, List.Forall₂ ShapeWF cs cs' →
      (cs'.any fun c => c.InBounds p) = (cs.any fun c => c.InBounds p) := by
  intro cs
  induction cs with
  | nil => intro cs' h; cases h; rfl
  | cons c cs ih =>
    intro cs' h
    cases h with
    | cons h1 h2 =>
      have ih2 := ih h2
      simp only [List.any_cons, QTree.InBounds] at ih2 ⊢
      rw [ih2, h1.1.1]

/-- `ShapeWF` lists preserve `listFuel`. -/
theorem forall₂_shape_listFuel {α : Type} :
    ∀ {cs cs' : List (QTree α)}, List.Forall₂ ShapeWF cs cs' →
      listFuel cs' = listFuel cs := by
  intro cs
  induction cs with
  | nil => intro cs' h; cases h; rfl
  | cons c cs ih =>
    intro cs' h
    cases h with
    | cons h1 h2 =>
      simp only [listFuel, ih h2, insertFuel, h1.1.2.1, h1.1.2.2]

/-- `ShapeWF` is reflexive on lists of well-formed trees. -/
theorem forall₂_shape_refl {α : Type} :
    ∀ {cs : List (QTree α)}, (∀ c ∈ cs, WF c) → List.Forall₂ ShapeWF cs cs := by
  intro cs
  induction cs with
  | nil => intro _; exact .nil
  | cons c cs ih =>
    intro h
    exact .cons ⟨⟨rfl, rfl, rfl⟩, h c (by simp)⟩ (ih fun x hx => h x (by simp [hx]))

/-- `ShapeWF` composes. -/
theorem forall₂_shape_trans {α : Type} :
    ∀ {cs cs' cs'' : List (QTree α)}, List.Forall₂ ShapeWF cs cs' →
      List.Forall₂ ShapeWF cs' cs'' → List.Forall₂ ShapeWF cs cs'' := by
  intro cs
  induction cs with
  | nil =>
    intro cs' cs'' h1 h2
    cases h1
    cases h2
    exact .nil
  | cons c cs ih =>
    intro cs' cs'' h1 h2
    cases h1 with
    | cons ha hb =>
      cases h2 with
      | cons hc hd =>
        refine .cons ⟨⟨?_, ?_, ?_⟩, hc.2⟩ (ih hb hd)
        · exact hc.1.1.trans ha.1.1
        · exact hc.1.2.1.trans ha.1.2.1
        · exact hc.1.2.2.trans ha.1.2.2

/-! Small lemmas about the element multisets and fuel. -/

/-- `elemsML` of the empty list. -/
theorem elemsML_nil {α : Type} : elemsML ([] : List (QTree α)) = 0 := rfl

/-- `elemsML` of a cons. -/
theorem elemsML_cons {α : Type} {c : QTree α} {cs : List (QTree α)} :
    elemsML (c :: cs) = elemsM c + elemsML cs := rfl

/-- `elemsM` of a leaf. -/
theorem elemsM_leaf {α : Type} {k d : Int} {es : List (QElement α)} {b : Rect} :
    elemsM (QTree.mk k none d es b) = (es : Multiset (QElement α)) := rfl

/-- `elemsM` of an internal node. -/
theorem elemsM_internal {α : Type} {k d : Int} {cs : List (QTree α)}
    {es : List (QElement α)} {b : Rect} :
    elemsM (QTree.mk k (some cs) d es b) =
      (es : Multiset (QElement α)) + elemsML cs := rfl

/-- `insertFuel` is always positive. -/
theorem insertFuel_pos {α : Type} (t : QTree α) : 1 ≤ insertFuel t := by
  simp [insertFuel]

/-- `listFuel` is always positive. -/
theorem listFuel_pos {α : Type} (cs : List (QTree α)) : 1 ≤ listFuel cs := by
  cases cs <;> simp [listFuel]

/-- A bound on `listFuel` from a bound on the members. -/
theorem listFuel_le {α : Type} {m : Nat} :
    ∀ {cs : List (QTree α)}, (∀ c ∈ cs, insertFuel c ≤ m) → 1 ≤ m →
      listFuel cs ≤ m + cs.length := by
  intro cs
  induction cs with
  | nil => intro _ h1; simpa [listFuel] using h1
  | cons c cs ih =>
    intro h h1
    have hc := h c (by simp)
    have hcs := ih (fun x hx => h x (by simp [hx])) h1
    simp only [listFuel, List.length_cons]
    omega

/-- Strengthened `Forall₂.imp` that also supplies left membership. -/
theorem forall₂_imp_mem {β γ : Type} {R S : β → γ → Prop} :
    ∀ {l : List β} {res : List γ}, List.Forall₂ R l res →
      (∀ a ∈ l, ∀ c, R a c → S a c) → List.Forall₂ S l res := by
  intro l
  induction l with
  | nil => intro res h _; cases h; exact .nil
  | cons a l ih =>
    intro res h himp
    cases h with
    | cons h1 h2 =>
      exact .cons (himp a (by simp) _ h1)
        (ih h2 fun x hx => himp x (by simp [hx]))

/-- Every left member of a `Forall₂` has a related right partner. -/
theorem forall₂_mem_left {β γ : Type} {R : β → γ → Prop} :
    ∀ {l : List β} {res : List γ}, List.Forall₂ R l res →
      ∀ a ∈ l, ∃ c, R a c := by
  intro l
  induction l with
  | nil => intro res h a ha; cases ha
  | cons x l ih =>
    intro res h a ha
    cases h with
    | cons h1 h2 =>
      rcases ha with _ | ha
      · exact ⟨_, h1⟩
      · exact ih h2 _ (by assumption)

/-! Characterization of a successful `subdivide`. -/

/-- What a successful `subdivide` produces: exactly the four quadrant leaves,
each nonempty, with inherited bucket size and decremented depth. -/
theorem subdivide_char {α : Type} {k d : Int} {ch : Option (List (QTree α))}
    {es : List (QElement α)} {b : Rect} {cs : List (QTree α)}
    (hb : b.Min.X ≤ b.Max.X ∧ b.Min.Y ≤ b.Max.Y)
    (h : (QTree.mk k ch d es b).subdivide = some cs) :
    1 ≤ k ∧ 0 ≤ d - 1 ∧
      cs = (quadRects b).map (fun q => QTree.mk k none (d - 1) [] q) ∧
      ∀ q ∈ quadRects b, q.Empty = false := by
  simp only [QTree.subdivide, QTree.bounds, QTree.bucketSize,
    QTree.depthRemaining] at h
  have hall := mapM_option_forall₂ h
  have hcanon := quadRects_canon hb
  have hq0 : (⟨b.Min, (b.Min.Add b.Max).Div 2⟩ : Rect) ∈ quadRects b := by
    simp [quadRects]
  obtain ⟨c0, hc0⟩ := forall₂_mem_left hall _ hq0
  obtain ⟨hk, hd, -, -⟩ := newQuadTree_eq_some hc0
  refine ⟨hk, hd, ?_, ?_⟩
  · refine forall₂_fun_eq_map (forall₂_imp_mem hall ?_)
    intro q hq c hc
    obtain ⟨-, -, -, rfl⟩ := newQuadTree_eq_some hc
    rw [hcanon q hq]
  · intro q hq
    obtain ⟨c, hc⟩ := forall₂_mem_left hall q hq
    obtain ⟨-, -, hemp, -⟩ := newQuadTree_eq_some hc
    rwa [hcanon q hq] at hemp

/-! Helpers for the main insert lemma. -/

/-- A fresh empty leaf with valid parameters is well formed. -/
theorem WF_fresh {α : Type} {k d : Int} {b : Rect} (hk : 1 ≤ k) (hd : 0 ≤ d)
    (hb : b.Empty = false) : WF (QTree.mk k none d [] b : QTree α) :=
  WF.node hk hd hb (by simp) (by intro _ _; simp; omega)
    (by intro cs hcs; cases hcs) (by intro cs hcs; cases hcs)

/-- If the children's bounds are the quadrants of a nonempty rectangle, every
point of the rectangle is in bounds of some child. -/
theorem any_inBounds_of_map_bounds {α : Type} {cs : List (QTree α)} {b : Rect}
    {p : Point} (hmap : cs.map QTree.bounds = quadRects b)
    (hb : b.Min.X ≤ b.Max.X ∧ b.Min.Y ≤ b.Max.Y) (hp : p.In b = true) :
    (cs.any fun c => c.InBounds p) = true := by
  obtain ⟨q, hq, hpq⟩ := quadRects_cover hb hp
  rw [← hmap] at hq
  obtain ⟨c, hc, rfl⟩ := List.mem_map.mp hq
  exact List.any_eq_true.mpr ⟨c, hc, by simpa [QTree.InBounds] using hpq⟩

/-- Fresh leaves contain no elements. -/
theorem elemsML_map_fresh {α : Type} {k d : Int} :
    ∀ (l : List Rect),
      elemsML (l.map fun q => (QTree.mk k none d [] q : QTree α)) = 0 := by
  intro l
  induction l with
  | nil => rfl
  | cons q l ih => simp [List.map_cons, elemsML_cons, ih, elemsM_leaf]

/-- `insertFuel` on an explicit node. -/
theorem insertFuel_mk {α : Type} {k d : Int} {ch : Option (List (QTree α))}
    {es : List (QElement α)} {b : Rect} :
    insertFuel (QTree.mk k ch d es b) = (k.toNat + 6) * d.toNat + 1 := rfl

/-- Binding a successful `Except` computation. -/
theorem except_bind_ok {ε β γ : Type} (a : β) (f : β → Except ε γ) :
    (Except.ok a >>= f : Except ε γ) = f a := rfl

/-- Binding a failed `Except` computation. -/
theorem except_bind_error {ε β γ : Type} (e : ε) (f : β → Except ε γ) :
    (Except.error e >>= f : Except ε γ) = Except.error e := rfl

/-- The coercion of an appended singleton. -/
theorem coe_append_singleton {β : Type} (l : List β) (x : β) :
    ((l ++ [x] : List β) : Multiset β) = (l : Multiset β) + {x} := rfl

/-- Main induction on fuel: on well-formed trees with sufficient fuel,
`insert` either panics or returns the Go boolean `InBounds e.p`, preserves the
node's shape and well-formedness, and adds the element to the stored multiset
exactly when it is in bounds; correspondingly for the child loop
(`insertList`) and the redistribution loop (`insertAll`). -/
theorem insert_master {α : Type} :
    ∀ fuel : Nat,
      (∀ (t : QTree α) (e : QElement α), WF t → insertFuel t ≤ fuel →
        QTree.insert fuel t e = .error .panic ∨
        ∃ t', QTree.insert fuel t e = .ok (t', t.InBounds e.p) ∧
          ShapeWF t t' ∧
          elemsM t' = elemsM t + (if t.InBounds e.p then {e} else 0)) ∧
      (∀ (cs : List (QTree α)) (e : QElement α), (∀ c ∈ cs, WF c) →
        listFuel cs ≤ fuel →
        QTree.insertList fuel cs e = .error .panic ∨
        ∃ cs', QTree.insertList fuel cs e =
            .ok (cs', cs.any fun c => c.InBounds e.p) ∧
          List.Forall₂ ShapeWF cs cs' ∧
          elemsML cs' = elemsML cs +
            (if cs.any fun c => c.InBounds e.p then {e} else 0)) ∧
      (∀ (cs : List (QTree α)) (es : List (QElement α)), (∀ c ∈ cs, WF c) →
        (∀ e ∈ es, (cs.any fun c => c.InBounds e.p) = true) →
        listFuel cs + es.length ≤ fuel →
        QTree.insertAll fuel cs es = .error .panic ∨
        ∃ cs', QTree.insertAll fuel cs es = .ok cs' ∧
          List.Forall₂ ShapeWF cs cs' ∧ elemsML cs' = elemsML cs + ↑es) := by
  intro fuel
  induction fuel with
  | zero =>
    refine ⟨?_, ?_, ?_⟩
    · intro t e _ hf
      have := insertFuel_pos t
      omega
    · intro cs e _ hf
      have := listFuel_pos cs
      omega
    · intro cs es _ _ hf
      have := listFuel_pos cs
      omega
  | succ fuel ih =>
    refine ⟨?_, ?_, ?_⟩
    · -- the insert case
      rintro ⟨k, ch, d, es, b⟩ e hwf hf
      cases hwf with
      | node hk hd hne hels hleaf hint hwfch =>
      rw [insertFuel_mk] at hf
      have hord : b.Min.X ≤ b.Max.X ∧ b.Min.Y ≤ b.Max.Y := by
        have := Rect.Empty_false_iff.mp hne
        omega
      by_cases hin : (QTree.mk k ch d es b).InBounds e.p = true
      · -- in bounds
        have hinb : e.p.In b = true := by
          simpa [QTree.InBounds, QTree.bounds] using hin
        cases ch with
        | some cs =>
          obtain ⟨hes0, hd1, hmap, hprops⟩ := hint cs rfl
          have hwfcs := hwfch cs rfl
          have hlen : cs.length = 4 := by
            have h4 := congrArg List.length hmap
            simpa [quadRects] using h4
          have hcf : ∀ c ∈ cs, insertFuel c = (k.toNat + 6) * (d - 1).toNat + 1 := by
            intro c hc
            obtain ⟨hb1, hd1'⟩ := hprops c hc
            simp [insertFuel, hb1, hd1']
          have hlf : listFuel cs ≤ fuel := by
            have h1 : listFuel cs ≤ ((k.toNat + 6) * (d - 1).toNat + 1) + cs.length :=
              listFuel_le (fun c hc => le_of_eq (hcf c hc)) (by omega)
            have hdt : (d - 1).toNat = d.toNat - 1 := by omega
            rw [hdt] at h1
            have hmul : (k.toNat + 6) * d.toNat
                = (k.toNat + 6) * (d.toNat - 1) + (k.toNat + 6) := by
              conv_lhs => rw [show d.toNat = (d.toNat - 1) + 1 by omega]
              ring
            omega
          have hany : (cs.any fun c => c.InBounds e.p) = true :=
            any_inBounds_of_map_bounds hmap hord hinb
          rcases ih.2.1 cs e hwfcs hlf with hlist | ⟨cs', hlist, hfor, hml⟩
          · left
            simp [QTree.insert, hin, hlist, except_bind_error]
          · right
            refine ⟨QTree.mk k (some cs') d es b, ?_, ⟨⟨rfl, rfl, rfl⟩, ?_⟩, ?_⟩
            · simp [QTree.insert, hin, hlist, except_bind_ok]
            · refine WF.node hk hd hne hels (by intro h; cases h) ?_ ?_
              · intro cs0 h
                injection h with h
                subst h
                refine ⟨hes0, hd1, ?_, forall₂_shape_props hfor hprops⟩
                rw [forall₂_shape_map_bounds hfor, hmap]
              · intro cs0 h
                injection h with h
                subst h
                exact forall₂_shape_wf hfor
            · rw [hin] at *
              simp only [elemsM_internal, hes0, hml, hany, if_true]
              simp
        | none =>
          by_cases hroom : d = 0 ∨ (es.length : Int) < k
          · right
            refine ⟨QTree.mk k none d (es ++ [e]) b, ?_, ⟨⟨rfl, rfl, rfl⟩, ?_⟩, ?_⟩
            · simp [QTree.insert, hin, hroom]
            · refine WF.node hk hd hne ?_ ?_ (by intro cs hcs; cases hcs)
                (by intro cs hcs; cases hcs)
              · intro x hx
                rcases List.mem_append.mp hx with hx | hx
                · exact hels x hx
                · simp only [List.mem_singleton] at hx
                  subst hx
                  exact hinb
              · intro _ hdne
                have := hleaf rfl hdne
                have hl2 : ¬ ((es.length : Int) < k) → False := by
                  intro hcon
                  rcases hroom with h0 | h0
                  · exact hdne h0
                  · exact hcon h0
                simp only [List.length_append, List.length_singleton]
                push_cast
                omega
            · rw [hin]
              simp [elemsM_leaf, coe_append_singleton]
          · cases hsub : (QTree.mk k none d es b).subdivide with
            | none =>
              left
              simp [QTree.insert, hin, hroom, hsub]
            | some cs =>
              obtain ⟨-, hd1, hcseq, hqne⟩ := subdivide_char hord hsub
              push_neg at hroom
              obtain ⟨hdne, hfull⟩ := hroom
              have hwfcs : ∀ c ∈ cs, WF c := by
                rw [hcseq]
                intro c hc
                obtain ⟨q, hq, rfl⟩ := List.mem_map.mp hc
                exact WF_fresh hk (by omega) (hqne q hq)
              have hmapb : cs.map QTree.bounds = quadRects b := by
                rw [hcseq, List.map_map]
                exact List.map_id'' (fun x => rfl) _
              have hcover : ∀ x ∈ es ++ [e],
                  (cs.any fun c => c.InBounds x.p) = true := by
                intro x hx
                refine any_inBounds_of_map_bounds hmapb hord ?_
                rcases List.mem_append.mp hx with hx | hx
                · exact hels x hx
                · simp only [List.mem_singleton] at hx
                  subst hx
                  exact hinb
              have heslen : es.length = k.toNat := by
                have := hleaf rfl hdne
                omega
              have hfa : listFuel cs + (es ++ [e]).length ≤ fuel := by
                have h1 : listFuel cs ≤
                    ((k.toNat + 6) * (d - 1).toNat + 1) + cs.length := by
                  refine listFuel_le ?_ (by omega)
                  rw [hcseq]
                  intro c hc
                  obtain ⟨q, hq, rfl⟩ := List.mem_map.mp hc
                  simp only [insertFuel, QTree.bucketSize, QTree.depthRemaining]
                  omega
                have hlen4 : cs.length = 4 := by
                  rw [hcseq]
                  simp [quadRects]
                rw [hlen4] at h1
                have hdt : (d - 1).toNat = d.toNat - 1 := by omega
                rw [hdt] at h1
                have hmul : (k.toNat + 6) * d.toNat
                    = (k.toNat + 6) * (d.toNat - 1) + (k.toNat + 6) := by
                  conv_lhs => rw [show d.toNat = (d.toNat - 1) + 1 by omega]
                  ring
                simp only [List.length_append, List.length_singleton]
                omega
              have hfreshprops : ∀ c ∈ cs,
                  c.bucketSize = k ∧ c.depthRemaining = d - 1 := by
                rw [hcseq]
                intro c hc
                obtain ⟨q, hq, rfl⟩ := List.mem_map.mp hc
                exact ⟨rfl, rfl⟩
              have hml0 : elemsML cs = 0 := by
                rw [hcseq]
                exact elemsML_map_fresh _
              rcases ih.2.2 cs (es ++ [e]) hwfcs hcover hfa with hall | ⟨cs', hall, hfor, hml⟩
              · left
                simp [QTree.insert, hin, hsub, hall,
                  if_neg (show ¬ (d = 0 ∨ (es.length : Int) < k) by
                    push_neg; exact ⟨hdne, hfull⟩),
                  except_bind_error]
              · right
                refine ⟨QTree.mk k (some cs') d [] b, ?_, ⟨⟨rfl, rfl, rfl⟩, ?_⟩, ?_⟩
                · simp [QTree.insert, hin, hsub, hall,
                    if_neg (show ¬ (d = 0 ∨ (es.length : Int) < k) by
                      push_neg; exact ⟨hdne, hfull⟩),
                    except_bind_ok]
                · refine WF.node hk hd hne (by simp) (by intro h; cases h) ?_ ?_
                  · intro cs0 h
                    injection h with h
                    subst h
                    exact ⟨rfl, by omega,
                      by rw [forall₂_shape_map_bounds hfor, hmapb],
                      forall₂_shape_props hfor hfreshprops⟩
                  · intro cs0 h
                    injection h with h
                    subst h
                    exact forall₂_shape_wf hfor
                · rw [hin]
                  simp only [elemsM_internal, elemsM_leaf, hml, hml0,
                    coe_append_singleton, if_true]
                  simp
      · -- out of bounds: insert returns false and leaves the node unchanged
        have hinf : (QTree.mk k ch d es b).InBounds e.p = false := by
          simpa using hin
        right
        refine ⟨QTree.mk k ch d es b, ?_,
          ⟨⟨rfl, rfl, rfl⟩, WF.node hk hd hne hels hleaf hint hwfch⟩, ?_⟩
        · cases ch <;> simp [QTree.insert, hinf]
        · rw [hinf]
          simp
    · -- the insertList case
      intro cs e hwf hlf
      cases cs with
      | nil =>
        right
        exact ⟨[], by simp [QTree.insertList], .nil, by simp [elemsML_nil]⟩
      | cons c cs =>
        have hfc : insertFuel c ≤ fuel := by
          simp only [listFuel] at hlf
          omega
        have hfcs : listFuel cs ≤ fuel := by
          simp only [listFuel] at hlf
          omega
        rcases ih.1 c e (hwf c (by simp)) hfc with hc | ⟨c', hc, hsw, hm⟩
        · left
          simp [QTree.insertList, hc, except_bind_error]
        · by_cases hcin : c.InBounds e.p = true
          · rw [hcin] at hc hm
            right
            refine ⟨c' :: cs, ?_, .cons hsw
              (forall₂_shape_refl fun x hx => hwf x (by simp [hx])), ?_⟩
            · simp [QTree.insertList, hc, except_bind_ok, List.any_cons, hcin]
              rfl
            · simp only [List.any_cons, hcin, Bool.true_or, if_true,
                elemsML_cons, hm, if_true]
              exact add_right_comm _ _ _
          · have hcin' : c.InBounds e.p = false := by
              simpa using hcin
            rw [hcin'] at hc hm
            rcases ih.2.1 cs e (fun x hx => hwf x (by simp [hx])) hfcs with
              hcs | ⟨cs', hcs, hfor, hml⟩
            · left
              simp [QTree.insertList, hc, except_bind_ok, hcs, except_bind_error]
            · right
              refine ⟨c' :: cs', ?_, .cons hsw hfor, ?_⟩
              · simp [QTree.insertList, hc, except_bind_ok, hcs, except_bind_ok,
                  List.any_cons, hcin']
              · simp only [List.any_cons, hcin', Bool.false_or, elemsML_cons,
                  hml, hm, if_false]
                simp [add_assoc]
    · -- the insertAll case
      intro cs es hwf hcov hf
      cases es with
      | nil =>
        right
        exact ⟨cs, by simp [QTree.insertAll], forall₂_shape_refl hwf, by simp⟩
      | cons x es =>
        have hlcs : listFuel cs ≤ fuel := by
          simp only [List.length_cons] at hf
          omega
        rcases ih.2.1 cs x hwf hlcs with hl | ⟨cs', hl, hfor, hml⟩
        · left
          simp [QTree.insertAll, hl, except_bind_error]
        · have hx : (cs.any fun c => c.InBounds x.p) = true := hcov x (by simp)
          rcases ih.2.2 cs' es (forall₂_shape_wf hfor)
            (by
              intro y hy
              rw [forall₂_shape_any hfor]
              exact hcov y (by simp [hy]))
            (by
              rw [forall₂_shape_listFuel hfor]
              simp only [List.length_cons] at hf
              omega) with ha | ⟨cs'', ha, hfor2, hml2⟩
          · left
            simp [QTree.insertAll, hl, except_bind_ok, ha]
          · right
            refine ⟨cs'', ?_, forall₂_shape_trans hfor hfor2, ?_⟩
            · simp [QTree.insertAll, hl, except_bind_ok, ha]
            · rw [hml2, hml, hx]
              have hcoe : ((x :: es : List (QElement α)) : Multiset (QElement α))
                  = {x} + ↑es := rfl
              rw [hcoe, if_pos rfl]
              exact add_assoc _ _ _

/-! Derived facts about the public `Insert`. -/

/-- Specification of `Insert` on well-formed trees: it panics, or returns
exactly the boolean `InBounds p`, preserves shape and well-formedness, and
adds the element to the stored multiset exactly when `p` is in bounds. -/
theorem Insert_spec {α : Type} {t : QTree α} (p : Point) (v : α) (hwf : WF t) :
    t.Insert p v = .error .panic ∨
      ∃ t', t.Insert p v = .ok (t', t.InBounds p) ∧ ShapeWF t t' ∧
        elemsM t' = elemsM t +
          (if t.InBounds p then {(⟨p, v⟩ : QElement α)} else 0) :=
  (insert_master (insertFuel t)).1 t ⟨p, v⟩ hwf (le_refl _)

/-- An out-of-bounds insert returns `false` and the unchanged tree, at any
nonzero fuel. -/
theorem insert_oob {α : Type} {fuel : Nat} {t : QTree α} {e : QElement α}
    (h : t.InBounds e.p = false) :
    QTree.insert (fuel + 1) t e = .ok (t, false) := by
  obtain ⟨k, ch, d, es, b⟩ := t
  cases ch <;> simp [QTree.insert, h]

/-- An out-of-bounds `Insert` returns `false` and the unchanged tree. -/
theorem Insert_oob {α : Type} {t : QTree α} {p : Point} {v : α}
    (h : t.InBounds p = false) : t.Insert p v = .ok (t, false) := by
  have hfe : insertFuel t = ((t.bucketSize.toNat + 6) * t.depthRemaining.toNat) + 1 := rfl
  rw [QTree.Insert, hfe]
  exact insert_oob h

/-- Inserting into a leaf with room (or an exhausted leaf) appends. -/
theorem insert_leaf_step {α : Type} {k d : Int} {es : List (QElement α)}
    {b : Rect} {e : QElement α} {fuel : Nat}
    (hroom : d = 0 ∨ (es.length : Int) < k) (hin : e.p.In b = true) :
    QTree.insert (fuel + 1) (QTree.mk k none d es b) e =
      .ok (.mk k none d (es ++ [e]) b, true) := by
  simp [QTree.insert, QTree.InBounds, QTree.bounds, hin, hroom]

/-- `Insert` on a leaf with room (or an exhausted leaf) appends. -/
theorem Insert_leaf_step {α : Type} {k d : Int} {es : List (QElement α)}
    {b : Rect} {p : Point} {v : α}
    (hroom : d = 0 ∨ (es.length : Int) < k) (hin : p.In b = true) :
    (QTree.mk k none d es b).Insert p v =
      .ok (.mk k none d (es ++ [⟨p, v⟩]) b, true) := by
  have hfe : insertFuel (QTree.mk k none d es b : QTree α)
      = ((k.toNat + 6) * d.toNat) + 1 := rfl
  rw [QTree.Insert, hfe]
  exact insert_leaf_step hroom hin

/-! Facts about `insertSeq`. -/

/-- Folding in-bounds pairs over a well-formed tree: on success the tree keeps
its shape and holds exactly the old elements plus the new ones. -/
theorem insertSeq_spec {α : Type} :
    ∀ {pvs : List (Point × α)} {t t' : QTree α},
      WF t → (∀ pv ∈ pvs, t.InBounds pv.1 = true) →
      insertSeq t pvs = some t' →
      WF t' ∧ SameShape t t' ∧
        elemsM t' = elemsM t +
          ↑(pvs.map fun pv => (⟨pv.1, pv.2⟩ : QElement α)) := by
  intro pvs
  induction pvs with
  | nil =>
    intro t t' hwf _ h
    cases h
    exact ⟨hwf, ⟨rfl, rfl, rfl⟩, by simp⟩
  | cons pv pvs ih =>
    intro t t' hwf hinb h
    simp only [insertSeq] at h
    rcases hspec : t.Insert pv.1 pv.2 with he | ⟨t1, bres⟩
    · rw [hspec] at h
      cases h
    · rw [hspec] at h
      rcases Insert_spec pv.1 pv.2 hwf with hpanic | ⟨t1', heq, hsw, hm⟩
      · rw [hspec] at hpanic
        cases hpanic
      · rw [hspec] at heq
        injection heq with heq
        injection heq with heq1 heq2
        subst heq1
        have hin1 := hinb pv (by simp)
        rw [hin1, if_pos rfl] at hm
        have hinb1 : ∀ x ∈ pvs, t1.InBounds x.1 = true := by
          intro x hx
          have hb : t1.bounds = t.bounds := hsw.1.1
          rw [QTree.InBounds, hb]
          exact hinb x (by simp [hx])
        obtain ⟨hwf', hsw', hm'⟩ := ih hsw.2 hinb1 h
        refine ⟨hwf', ⟨hsw'.1.trans hsw.1.1, hsw'.2.1.trans hsw.1.2.1,
          hsw'.2.2.trans hsw.1.2.2⟩, ?_⟩
        rw [hm', hm]
        have hcoe : ((((⟨pv.1, pv.2⟩ : QElement α)) ::
            (pvs.map fun x => (⟨x.1, x.2⟩ : QElement α)) : List (QElement α)) :
              Multiset (QElement α))
            = {(⟨pv.1, pv.2⟩ : QElement α)} +
              ↑(pvs.map fun x => (⟨x.1, x.2⟩ : QElement α)) := rfl
        rw [List.map_cons, hcoe]
        exact add_assoc _ _ _

/-- Folding arbitrary pairs only grows the stored multiset. -/
theorem insertSeq_mono {α : Type} :
    ∀ {pvs : List (Point × α)} {t t' : QTree α},
      WF t → insertSeq t pvs = some t' →
      WF t' ∧ SameShape t t' ∧ elemsM t ≤ elemsM t' := by
  intro pvs
  induction pvs with
  | nil =>
    intro t t' hwf h
    cases h
    exact ⟨hwf, ⟨rfl, rfl, rfl⟩, le_refl _⟩
  | cons pv pvs ih =>
    intro t t' hwf h
    simp only [insertSeq] at h
    rcases hspec : t.Insert pv.1 pv.2 with he | ⟨t1, bres⟩
    · rw [hspec] at h
      cases h
    · rw [hspec] at h
      rcases Insert_spec pv.1 pv.2 hwf with hpanic | ⟨t1', heq, hsw, hm⟩
      · rw [hspec] at hpanic
        cases hpanic
      · rw [hspec] at heq
        injection heq with heq
        injection heq with heq1 heq2
        subst heq1
        obtain ⟨hwf', hsw', hle⟩ := ih hsw.2 h
        refine ⟨hwf', ⟨hsw'.1.trans hsw.1.1, hsw'.2.1.trans hsw.1.2.1,
          hsw'.2.2.trans hsw.1.2.2⟩, ?_⟩
        refine le_trans ?_ hle
        rw [hm]
        exact Multiset.le_add_right _ _

/-! Facts about `Select`. -/

/-- `Select` on a leaf whose bounds overlap the query returns the whole
bucket, with no per-element filtering. -/
theorem Select_leaf {α : Type} {t : QTree α} {rect : Rect}
    (hch : t.children = none) (hov : t.bounds.Overlaps rect = true) :
    t.Select rect = t.elements := by
  obtain ⟨k, ch, d, es, b⟩ := t
  simp only [QTree.children] at hch
  subst hch
  simp [QTree.Select, QTree.bounds, QTree.elements] at hov ⊢
  simp [hov]

/-- If every subtree in the list selects its whole contents, so does the
concatenation. -/
theorem selectList_all {α : Type} {rect : Rect} :
    ∀ {cs : List (QTree α)},
      (∀ c ∈ cs, c.Select rect = c.allElements) →
      QTree.selectList cs rect = QTree.allElementsList cs := by
  intro cs
  induction cs with
  | nil => intro _; rfl
  | cons c cs ih =>
    intro h
    simp only [QTree.selectList, QTree.allElementsList]
    rw [h c (by simp), ih fun x hx => h x (by simp [hx])]

/-- On a well-formed tree, selecting with any rectangle that contains the
tree's bounds returns every stored element. -/
theorem Select_of_subRect {α : Type} {t : QTree α} {rect : Rect}
    (hwf : WF t) (hsub : SubRect t.bounds rect) :
    t.Select rect = t.allElements := by
  induction hwf with
  | @node k ch d es b hk hd hne hels hleaf hint hwfch ihch =>
    have hord : b.Min.X ≤ b.Max.X ∧ b.Min.Y ≤ b.Max.Y := by
      have := Rect.Empty_false_iff.mp hne
      omega
    have hov : b.Overlaps rect = true :=
      overlaps_of_subRect (by simpa [QTree.bounds] using hsub) hne
    cases ch with
    | none =>
      simp [QTree.Select, QTree.allElements, hov]
    | some cs =>
      obtain ⟨hes0, hd1, hmap, hprops⟩ := hint cs rfl
      have hrec : ∀ c ∈ cs, c.Select rect = c.allElements := by
        intro c hc
        refine ihch cs rfl c hc ?_
        have hqc : c.bounds ∈ quadRects b := by
          rw [← hmap]
          exact List.mem_map_of_mem QTree.bounds hc
        refine SubRect.trans (quadRects_sub hord _ hqc) ?_
        simpa [QTree.bounds] using hsub
      simp only [QTree.Select, hov, Bool.not_true, if_neg, QTree.allElements,
        hes0, List.nil_append]
      rw [selectList_all hrec]
      simp

/-! Size lemmas and the frame property of `SelectSt`. -/

/-- Every tree has at least one node. -/
theorem size_pos {α : Type} (t : QTree α) : 1 ≤ t.size := by
  obtain ⟨k, ch, d, es, b⟩ := t
  cases ch <;> simp [QTree.size]

/-- A member's size is bounded by the list size. -/
theorem sizeList_mem_le {α : Type} {c : QTree α} :
    ∀ {cs : List (QTree α)}, c ∈ cs → c.size ≤ QTree.sizeList cs := by
  intro cs
  induction cs with
  | nil => intro h; cases h
  | cons x cs ih =>
    intro h
    rcases h with _ | h
    · simp [QTree.sizeList]
    · have := ih (by assumption)
      simp only [QTree.sizeList]
      omega

/-- The state-threaded child loop returns the children unchanged when each
child's traversal does. -/
theorem selectStList_spec {α : Type} {rect : Rect} :
    ∀ {cs : List (QTree α)},
      (∀ c ∈ cs, (c.SelectSt rect).1 = c ∧ (c.SelectSt rect).2 = c.Select rect) →
      (QTree.selectStList cs rect).1 = cs ∧
        (QTree.selectStList cs rect).2 = QTree.selectList cs rect := by
  intro cs
  induction cs with
  | nil => intro _; exact ⟨rfl, rfl⟩
  | cons c cs ih =>
    intro h
    obtain ⟨ih1, ih2⟩ := ih fun x hx => h x (by simp [hx])
    obtain ⟨h1, h2⟩ := h c (by simp)
    simp only [QTree.selectStList, QTree.selectList, ih1, ih2, h1, h2]
    exact ⟨trivial, trivial⟩

/-- The state-threaded `Select` returns the tree unchanged and computes the
same result as the pure `Select`. -/
theorem SelectSt_spec {α : Type} :
    ∀ (n : Nat) (t : QTree α), t.size ≤ n → ∀ rect : Rect,
      (t.SelectSt rect).1 = t ∧ (t.SelectSt rect).2 = t.Select rect := by
  intro n
  induction n with
  | zero =>
    intro t h
    have := size_pos t
    omega
  | succ n ih =>
    intro t h rect
    obtain ⟨k, ch, d, es, b⟩ := t
    cases ch with
    | none =>
      by_cases hov : b.Overlaps rect = true <;>
        simp [QTree.SelectSt, QTree.Select, hov]
    | some cs =>
      have hrec : ∀ c ∈ cs,
          (c.SelectSt rect).1 = c ∧ (c.SelectSt rect).2 = c.Select rect := by
        intro c hc
        refine ih c ?_ rect
        have h1 := sizeList_mem_le hc
        have h2 : QTree.sizeList cs + 1 ≤ n + 1 := by
          simpa [QTree.size] using h
        omega
      obtain ⟨hl1, hl2⟩ := selectStList_spec hrec
      by_cases hov : b.Overlaps rect = true <;>
        simp [QTree.SelectSt, QTree.Select, hov, hl1, hl2]

/-! Step lemmas for sequences of leaf inserts. -/

/-- With a zero depth budget, a leaf absorbs any number of in-bounds points in
order, never subdividing. -/
theorem insertSeq_depth0 {α : Type} :
    ∀ {pvs : List (Point × α)} {k : Int} {es : List (QElement α)} {b : Rect},
      (∀ pv ∈ pvs, pv.1.In b = true) →
      insertSeq (QTree.mk k none 0 es b) pvs =
        some (QTree.mk k none 0
          (es ++ pvs.map fun pv => (⟨pv.1, pv.2⟩ : QElement α)) b) := by
  intro pvs
  induction pvs with
  | nil =>
    intro k es b _
    simp [insertSeq]
  | cons pv pvs ih =>
    intro k es b h
    simp only [insertSeq]
    rw [Insert_leaf_step (Or.inl rfl) (h pv (by simp))]
    dsimp only
    rw [ih fun x hx => h x (by simp [hx])]
    simp

/-- A leaf with enough room absorbs in-bounds points in order without
subdividing. -/
theorem insertSeq_room {α : Type} :
    ∀ {pvs : List (Point × α)} {k d : Int} {es : List (QElement α)} {b : Rect},
      (∀ pv ∈ pvs, pv.1.In b = true) →
      ((es.length : Int) + pvs.length ≤ k) →
      insertSeq (QTree.mk k none d es b) pvs =
        some (QTree.mk k none d
          (es ++ pvs.map fun pv => (⟨pv.1, pv.2⟩ : QElement α)) b) := by
  intro pvs
  induction pvs with
  | nil =>
    intro k d es b _ _
    simp [insertSeq]
  | cons pv pvs ih =>
    intro k d es b h hlen
    simp only [insertSeq]
    have hroom : (es.length : Int) < k := by
      simp only [List.length_cons] at hlen
      push_cast at hlen
      omega
    rw [Insert_leaf_step (Or.inr hroom) (h pv (by simp))]
    dsimp only
    rw [ih (fun x hx => h x (by simp [hx])) (by
      simp only [List.length_append, List.length_cons, List.length_nil] at hlen ⊢
      push_cast at hlen ⊢
      omega)]
    simp

/-! Subtrees of well-formed trees. -/

/-- Well-formedness is hereditary. -/
theorem WF_subtree {α : Type} {s t : QTree α} (hst : Subtree s t)
    (hwf : WF t) : WF s := by
  induction hst with
  | refl => exact hwf
  | step hc hsub ih =>
    cases hwf with
    | node hk hd hne hels hleaf hint hwfch =>
      exact ih (hwfch _ rfl _ hc)

/-- The internal-node shape of a well-formed tree: exactly four children whose
bounds are the quadrants, an empty bucket, and every point of the node's
bounds inside exactly one child. -/
theorem WF_internal_char {α : Type} {t : QTree α} {cs : List (QTree α)}
    (hwf : WF t) (hch : t.children = some cs) :
    cs.length = 4 ∧ cs.map QTree.bounds = quadRects t.bounds ∧
      t.elements = [] ∧
      ∀ p : Point, p.In t.bounds = true →
        (cs.countP fun c => c.InBounds p) = 1 := by
  obtain ⟨k, ch, d, es, b⟩ := t
  simp only [QTree.children] at hch
  subst hch
  cases hwf with
  | node hk hd hne hels hleaf hint hwfch =>
    obtain ⟨hes0, hd1, hmap, hprops⟩ := hint cs rfl
    have hord : b.Min.X ≤ b.Max.X ∧ b.Min.Y ≤ b.Max.Y := by
      have := Rect.Empty_false_iff.mp hne
      omega
    refine ⟨?_, by simpa [QTree.bounds] using hmap,
      by simpa [QTree.elements] using hes0, ?_⟩
    · have h4 := congrArg List.length hmap
      simpa [quadRects] using h4
    · intro p hp
      simp only [QTree.bounds] at hp
      have hcount := quadRects_countP_one hord hp
      rw [← hmap, List.countP_map] at hcount
      simpa [QTree.InBounds, Function.comp] using hcount

/-! The claims. -/

/-- C7: for every tree with bounds `B`, `InBounds p` is true iff
`B.Min.X ≤ p.X < B.Max.X` and `B.Min.Y ≤ p.Y < B.Max.Y`; in particular the
minimum corner of a nonempty bounds is contained and the maximum corner is
never contained. -/
theorem c7_inBounds_halfopen {α : Type} (t : QTree α) (p : Point) :
    (t.InBounds p = true ↔
      t.bounds.Min.X ≤ p.X ∧ p.X < t.bounds.Max.X ∧
        t.bounds.Min.Y ≤ p.Y ∧ p.Y < t.bounds.Max.Y) ∧
    (t.bounds.Empty = false → t.InBounds t.bounds.Min = true) ∧
    t.InBounds t.bounds.Max = false := by
  refine ⟨by rw [QTree.InBounds]; exact Point.In_iff, ?_, ?_⟩
  · intro hne
    rw [Rect.Empty_false_iff] at hne
    rw [QTree.InBounds, Point.In_iff]
    omega
  · rw [QTree.InBounds]
    simp [Point.In]

/-- Witness for C7 at a concrete tree. -/
theorem c7_inBounds_halfopen_witness :
    ((QTree.mk 1 none 0 [] ⟨⟨0, 0⟩, ⟨2, 2⟩⟩ : QTree Nat).InBounds ⟨0, 0⟩ = true) ∧
    ((QTree.mk 1 none 0 [] ⟨⟨0, 0⟩, ⟨2, 2⟩⟩ : QTree Nat).InBounds ⟨2, 2⟩ = false) :=
  ⟨(c7_inBounds_halfopen (QTree.mk 1 none 0 [] ⟨⟨0, 0⟩, ⟨2, 2⟩⟩ : QTree Nat)
      ⟨0, 0⟩).2.1 (by decide),
    (c7_inBounds_halfopen (QTree.mk 1 none 0 [] ⟨⟨0, 0⟩, ⟨2, 2⟩⟩ : QTree Nat)
      ⟨0, 0⟩).2.2⟩

/-- C8: `NewQuadTree` fails (panics, modelled as `none`) exactly when the
bucket size is below one, the depth budget is negative, or the canonicalized
bounds is empty; otherwise it returns the empty leaf with the canonicalized
bounds, the given capacity and the given depth budget. -/
theorem c8_new_validation {α : Type} (b : Rect) (k d : Int) :
    ((k < 1 ∨ d < 0 ∨ (b.Canon).Empty = true) →
      (NewQuadTree b k d : Option (QTree α)) = none) ∧
    (¬(k < 1 ∨ d < 0 ∨ (b.Canon).Empty = true) →
      (NewQuadTree b k d : Option (QTree α)) =
        some (.mk k none d [] b.Canon)) := by
  constructor
  · intro h
    cases hr : (NewQuadTree b k d : Option (QTree α)) with
    | none => rfl
    | some t =>
      rw [NewQuadTree] at hr
      obtain ⟨h1, h2, h3, -⟩ := newQuadTree_eq_some hr
      rcases h with h | h | h
      · omega
      · omega
      · rw [h3] at h
        cases h
  · intro h
    push_neg at h
    rw [NewQuadTree]
    exact newQuadTree_eq_some_of (by omega) (by omega)
      (by
        rcases hb : (b.Canon).Empty with _ | _
        · rfl
        · exact absurd hb h.2.2)

/-- Witness for C8: a valid and an invalid construction. -/
theorem c8_new_validation_witness :
    (NewQuadTree (⟨⟨0, 0⟩, ⟨2, 2⟩⟩ : Rect) 1 0 : Option (QTree Nat)) =
      some (.mk 1 none 0 [] ⟨⟨0, 0⟩, ⟨2, 2⟩⟩) ∧
    (NewQuadTree (⟨⟨0, 0⟩, ⟨2, 2⟩⟩ : Rect) 0 0 : Option (QTree Nat)) = none :=
  ⟨(c8_new_validation _ _ _).2 (by decide), (c8_new_validation _ _ _).1 (by decide)⟩

/-- C4: inserting an out-of-bounds point returns `false` and leaves the tree
completely unchanged — the returned state is the very same tree, so any
subsequent `Select` returns exactly what it returned before. -/
theorem c4_oob_insert_noop {α : Type} (t : QTree α) (p : Point) (v : α)
    (h : t.InBounds p = false) :
    t.Insert p v = .ok (t, false) ∧
    ∀ t' b', t.Insert p v = .ok (t', b') →
      t' = t ∧ ∀ rect : Rect, t'.Select rect = t.Select rect := by
  have h1 := Insert_oob (v := v) h
  refine ⟨h1, ?_⟩
  intro t' b' h2
  rw [h1] at h2
  injection h2 with h2
  injection h2 with h2 h3
  exact ⟨h2.symm, fun rect => by rw [h2]⟩

/-- Witness for C4 at a concrete tree and point. -/
theorem c4_oob_insert_noop_witness :
    (QTree.mk 1 none 0 [] ⟨⟨0, 0⟩, ⟨2, 2⟩⟩ : QTree Nat).Insert ⟨5, 5⟩ 0 =
      .ok (QTree.mk 1 none 0 [] ⟨⟨0, 0⟩, ⟨2, 2⟩⟩, false) :=
  (c4_oob_insert_noop _ _ _ (by decide)).1

/-- C2 (code bug): `Insert` can fail in a way other than returning `false`:
on a tree whose bounds are one unit wide, the insert that fills the bucket
past capacity triggers `subdivide`, which builds an empty north-west quadrant
and panics inside `newQuadTree`. The constructor accepts these arguments, so
the state is reachable. -/
theorem c2_insert_can_panic :
    (NewQuadTree (⟨⟨0, 0⟩, ⟨1, 1⟩⟩ : Rect) 1 1 : Option (QTree Nat)) =
      some (.mk 1 none 1 [] ⟨⟨0, 0⟩, ⟨1, 1⟩⟩) ∧
    (QTree.mk 1 none 1 [] (⟨⟨0, 0⟩, ⟨1, 1⟩⟩ : Rect) : QTree Nat).Insert ⟨0, 0⟩ 0 =
      .ok (.mk 1 none 1 [⟨⟨0, 0⟩, 0⟩] ⟨⟨0, 0⟩, ⟨1, 1⟩⟩, true) ∧
    (QTree.mk 1 none 1 [⟨⟨0, 0⟩, 0⟩] (⟨⟨0, 0⟩, ⟨1, 1⟩⟩ : Rect) : QTree Nat).Insert
        ⟨0, 0⟩ 0 = .error .panic :=
  ⟨rfl, rfl, rfl⟩

/-- C3: `Select` contributes a leaf's entries unconditionally whenever the
leaf's bounds overlap the query, with no per-entry filtering; consequently a
reachable tree and query exist for which `Select` returns an entry whose point
lies outside the query rectangle. -/
theorem c3_select_overinclusive {α : Type} :
    (∀ (t : QTree α) (rect : Rect), t.children = none →
      t.bounds.Overlaps rect = true → t.Select rect = t.elements) ∧
    ((NewQuadTree (⟨⟨0, 0⟩, ⟨4, 4⟩⟩ : Rect) 4 4 : Option (QTree Nat)) =
      some (.mk 4 none 4 [] ⟨⟨0, 0⟩, ⟨4, 4⟩⟩) ∧
    (QTree.mk 4 none 4 [] (⟨⟨0, 0⟩, ⟨4, 4⟩⟩ : Rect) : QTree Nat).Insert ⟨3, 3⟩ 0 =
      .ok (.mk 4 none 4 [⟨⟨3, 3⟩, 0⟩] ⟨⟨0, 0⟩, ⟨4, 4⟩⟩, true) ∧
    (QTree.mk 4 none 4 [⟨⟨3, 3⟩, 0⟩] (⟨⟨0, 0⟩, ⟨4, 4⟩⟩ : Rect) : QTree Nat).Select
        ⟨⟨0, 0⟩, ⟨1, 1⟩⟩ = [⟨⟨3, 3⟩, 0⟩] ∧
    Point.In ⟨3, 3⟩ (⟨⟨0, 0⟩, ⟨1, 1⟩⟩ : Rect) = false) :=
  ⟨fun t rect hch hov => Select_leaf hch hov, rfl, rfl, rfl, by decide⟩

/-- Witness for C3's universal part at a concrete leaf. -/
theorem c3_select_overinclusive_witness :
    (QTree.mk 4 none 4 [⟨⟨3, 3⟩, 0⟩] (⟨⟨0, 0⟩, ⟨4, 4⟩⟩ : Rect) : QTree Nat).Select
        ⟨⟨0, 0⟩, ⟨1, 1⟩⟩ =
      (QTree.mk 4 none 4 [⟨⟨3, 3⟩, 0⟩] (⟨⟨0, 0⟩, ⟨4, 4⟩⟩ : Rect) : QTree Nat).elements :=
  (c3_select_overinclusive (α := Nat)).1 _ _ rfl (by decide)

/-- C10: `Select` is read-only — the state-threaded traversal returns the tree
unchanged and computes the pure `Select` result, so two consecutive calls with
the same rectangle return the same list. -/
theorem c10_select_readonly {α : Type} (t : QTree α) (rect : Rect) :
    (t.SelectSt rect).1 = t ∧
    (t.SelectSt rect).2 = t.Select rect ∧
    ((t.SelectSt rect).1.SelectSt rect).2 = (t.SelectSt rect).2 := by
  obtain ⟨h1, h2⟩ := SelectSt_spec t.size t (le_refl _) rect
  exact ⟨h1, h2, by rw [h1]⟩

/-- C5: in every tree reachable from `NewQuadTree` by inserts, every internal
node has exactly four children whose bounds are the four quadrants split at
the integer-truncated midpoint of the node's bounds; they tile the node's
bounds (every point of the bounds lies in exactly one child), and the node's
own bucket is empty. -/
theorem c5_subdivision_tiles {α : Type} (b : Rect) (k d : Int)
    (t0 t s : QTree α) (pvs : List (Point × α)) (cs : List (QTree α))
    (hnew : NewQuadTree b k d = some t0)
    (hseq : insertSeq t0 pvs = some t)
    (hsub : Subtree s t) (hch : s.children = some cs) :
    cs.length = 4 ∧ cs.map QTree.bounds = quadRects s.bounds ∧
      s.elements = [] ∧
      ∀ p : Point, p.In s.bounds = true →
        (cs.countP fun c => c.InBounds p) = 1 := by
  rw [NewQuadTree] at hnew
  have hwf0 := newQuadTree_WF hnew
  obtain ⟨hwf, -, -⟩ := insertSeq_mono hwf0 hseq
  exact WF_internal_char (WF_subtree hsub hwf) hch

/-- Witness for C5 on the concrete subdivided tree reached by inserting
`(0,0)` and `(3,3)` into a fresh capacity-1, depth-2 tree on `[0,4)²`. -/
theorem c5_subdivision_tiles_witness :
    ([QTree.mk 1 none 1 [⟨⟨0, 0⟩, 0⟩] ⟨⟨0, 0⟩, ⟨2, 2⟩⟩,
      QTree.mk 1 none 1 [] ⟨⟨2, 0⟩, ⟨4, 2⟩⟩,
      QTree.mk 1 none 1 [] ⟨⟨0, 2⟩, ⟨2, 4⟩⟩,
      QTree.mk 1 none 1 [⟨⟨3, 3⟩, 1⟩] ⟨⟨2, 2⟩, ⟨4, 4⟩⟩] : List (QTree Nat)).length = 4 ∧
    (([QTree.mk 1 none 1 [⟨⟨0, 0⟩, 0⟩] ⟨⟨0, 0⟩, ⟨2, 2⟩⟩,
      QTree.mk 1 none 1 [] ⟨⟨2, 0⟩, ⟨4, 2⟩⟩,
      QTree.mk 1 none 1 [] ⟨⟨0, 2⟩, ⟨2, 4⟩⟩,
      QTree.mk 1 none 1 [⟨⟨3, 3⟩, 1⟩] ⟨⟨2, 2⟩, ⟨4, 4⟩⟩] : List (QTree Nat)).countP
        fun c => c.InBounds ⟨1, 1⟩) = 1 := by
  have h := c5_subdivision_tiles (⟨⟨0, 0⟩, ⟨4, 4⟩⟩ : Rect) 1 2
    (QTree.mk 1 none 2 [] ⟨⟨0, 0⟩, ⟨4, 4⟩⟩)
    (QTree.mk 1 (some [QTree.mk 1 none 1 [⟨⟨0, 0⟩, 0⟩] ⟨⟨0, 0⟩, ⟨2, 2⟩⟩,
      QTree.mk 1 none 1 [] ⟨⟨2, 0⟩, ⟨4, 2⟩⟩,
      QTree.mk 1 none 1 [] ⟨⟨0, 2⟩, ⟨2, 4⟩⟩,
      QTree.mk 1 none 1 [⟨⟨3, 3⟩, 1⟩] ⟨⟨2, 2⟩, ⟨4, 4⟩⟩]) 2 [] ⟨⟨0, 0⟩, ⟨4, 4⟩⟩)
    (QTree.mk 1 (some [QTree.mk 1 none 1 [⟨⟨0, 0⟩, 0⟩] ⟨⟨0, 0⟩, ⟨2, 2⟩⟩,
      QTree.mk 1 none 1 [] ⟨⟨2, 0⟩, ⟨4, 2⟩⟩,
      QTree.mk 1 none 1 [] ⟨⟨0, 2⟩, ⟨2, 4⟩⟩,
      QTree.mk 1 none 1 [⟨⟨3, 3⟩, 1⟩] ⟨⟨2, 2⟩, ⟨4, 4⟩⟩]) 2 [] ⟨⟨0, 0⟩, ⟨4, 4⟩⟩)
    [(⟨0, 0⟩, 0), (⟨3, 3⟩, 1)] _ rfl rfl (Subtree.refl _) rfl
  exact ⟨h.1, h.2.2.2 ⟨1, 1⟩ (by decide)⟩

/-- C6: with a zero depth budget the node never subdivides: every in-bounds
insertion appends (returning `true` even past the bucket capacity, for any
bucket contents), and a full-bounds `Select` returns every inserted entry in
order. -/
theorem c6_depth_zero {α : Type} (b : Rect) (k : Int) (t0 : QTree α)
    (pvs : List (Point × α))
    (hnew : NewQuadTree b k 0 = some t0)
    (hin : ∀ pv ∈ pvs, t0.InBounds pv.1 = true) :
    insertSeq t0 pvs = some (QTree.mk k none 0
      (pvs.map fun pv => (⟨pv.1, pv.2⟩ : QElement α)) t0.bounds) ∧
    (QTree.mk k none 0 (pvs.map fun pv => (⟨pv.1, pv.2⟩ : QElement α))
        t0.bounds).Select t0.bounds
      = pvs.map (fun pv => (⟨pv.1, pv.2⟩ : QElement α)) ∧
    ((QTree.mk k none 0 (pvs.map fun pv => (⟨pv.1, pv.2⟩ : QElement α))
        t0.bounds).Select t0.bounds).length = pvs.length ∧
    ∀ (es : List (QElement α)) (p : Point) (v : α), p.In t0.bounds = true →
      (QTree.mk k none 0 es t0.bounds).Insert p v =
        .ok (.mk k none 0 (es ++ [⟨p, v⟩]) t0.bounds, true) := by
  rw [NewQuadTree] at hnew
  obtain ⟨hk, -, hne, rfl⟩ := newQuadTree_eq_some hnew
  simp only [QTree.bounds] at hin ⊢
  have hin' : ∀ pv ∈ pvs, pv.1.In b.Canon = true := by
    intro pv hpv
    simpa [QTree.InBounds, QTree.bounds] using hin pv hpv
  have hov : (b.Canon).Overlaps b.Canon = true :=
    overlaps_of_subRect (SubRect.refl _) hne
  refine ⟨?_, ?_, ?_, ?_⟩
  · simpa using insertSeq_depth0 hin'
  · rw [Select_leaf
      (t := QTree.mk k none 0
        (pvs.map fun pv => (⟨pv.1, pv.2⟩ : QElement α)) b.Canon)
      rfl (by simpa [QTree.bounds] using hov)]
    rfl
  · rw [Select_leaf
      (t := QTree.mk k none 0
        (pvs.map fun pv => (⟨pv.1, pv.2⟩ : QElement α)) b.Canon)
      rfl (by simpa [QTree.bounds] using hov)]
    simp [QTree.elements]
  · intro es p v hp
    exact Insert_leaf_step (Or.inl rfl) hp

/-- Witness for C6: three points into a capacity-1 depth-0 tree. -/
theorem c6_depth_zero_witness :
    insertSeq (QTree.mk 1 none 0 [] (⟨⟨0, 0⟩, ⟨2, 2⟩⟩ : Rect) : QTree Nat)
        [(⟨0, 0⟩, 0), (⟨1, 1⟩, 1), (⟨0, 1⟩, 2)] =
      some (QTree.mk 1 none 0 [⟨⟨0, 0⟩, 0⟩, ⟨⟨1, 1⟩, 1⟩, ⟨⟨0, 1⟩, 2⟩]
        ⟨⟨0, 0⟩, ⟨2, 2⟩⟩) := by
  have h := c6_depth_zero (⟨⟨0, 0⟩, ⟨2, 2⟩⟩ : Rect) 1
    (QTree.mk 1 none 0 [] ⟨⟨0, 0⟩, ⟨2, 2⟩⟩)
    [(⟨0, 0⟩, 0), (⟨1, 1⟩, 1), (⟨0, 1⟩, 2)] rfl (by decide)
  exact h.1

/-- C1: inserting distinct in-bounds points into a fresh tree and then
selecting the full bounds returns exactly as many entries as were inserted —
none lost, none duplicated — whenever the insertion sequence completes
(which it always does when the number of points is within the bucket
capacity). -/
theorem c1_full_select_count {α : Type} (b : Rect) (k d : Int)
    (t0 : QTree α) (pvs : List (Point × α))
    (hnew : NewQuadTree b k d = some t0)
    (hdist : pvs.Pairwise fun x y => x.1 ≠ y.1)
    (hin : ∀ pv ∈ pvs, t0.InBounds pv.1 = true) :
    (∀ t, insertSeq t0 pvs = some t →
      (t.Select t0.bounds).length = pvs.length) ∧
    ((pvs.length : Int) ≤ k → ∃ t, insertSeq t0 pvs = some t) := by
  rw [NewQuadTree] at hnew
  have hwf0 := newQuadTree_WF hnew
  constructor
  · intro t hseq
    obtain ⟨hwf, hsh, hm⟩ := insertSeq_spec hwf0 hin hseq
    have hb : t.bounds = t0.bounds := hsh.1
    have hsel : t.Select t0.bounds = t.allElements := by
      rw [← hb]
      exact Select_of_subRect hwf (SubRect.refl _)
    rw [hsel]
    have hcard := congrArg Multiset.card hm
    obtain ⟨-, -, -, rfl⟩ := newQuadTree_eq_some hnew
    simp only [elemsM, QTree.allElements, Multiset.coe_card, Multiset.card_add,
      List.length_map, List.length_nil] at hcard
    simpa using hcard
  · intro hlen
    obtain ⟨-, -, -, rfl⟩ := newQuadTree_eq_some hnew
    refine ⟨_, insertSeq_room ?_ (by simpa using hlen)⟩
    intro pv hpv
    simpa [QTree.InBounds, QTree.bounds] using hin pv hpv

/-- Witness for C1 on a fresh capacity-1 depth-2 tree over `[0,4)²` receiving
the two distinct points `(0,0)` and `(3,3)`: the insertion subdivides and the
full-bounds select still returns two entries. -/
theorem c1_full_select_count_witness :
    ((QTree.mk 1 (some [QTree.mk 1 none 1 [⟨⟨0, 0⟩, 0⟩] ⟨⟨0, 0⟩, ⟨2, 2⟩⟩,
      QTree.mk 1 none 1 [] ⟨⟨2, 0⟩, ⟨4, 2⟩⟩,
      QTree.mk 1 none 1 [] ⟨⟨0, 2⟩, ⟨2, 4⟩⟩,
      QTree.mk 1 none 1 [⟨⟨3, 3⟩, 1⟩] ⟨⟨2, 2⟩, ⟨4, 4⟩⟩]) 2 [] ⟨⟨0, 0⟩, ⟨4, 4⟩⟩ :
        QTree Nat).Select
      (QTree.mk 1 none 2 [] (⟨⟨0, 0⟩, ⟨4, 4⟩⟩ : Rect) : QTree Nat).bounds).length = 2 :=
  (c1_full_select_count (⟨⟨0, 0⟩, ⟨4, 4⟩⟩ : Rect) 1 2
    (QTree.mk 1 none 2 [] ⟨⟨0, 0⟩, ⟨4, 4⟩⟩)
    [(⟨0, 0⟩, 0), (⟨3, 3⟩, 1)] rfl (by decide) (by decide)).1 _ rfl

/-- C9: once an `Insert` has returned `true`, the inserted point/value pair is
present in every subsequent full-bounds `Select`, across any further sequence
of inserts; stored elements are never altered. -/
theorem c9_inserted_element_persists {α : Type} (b : Rect) (k d : Int)
    (t0 t t1 t2 : QTree α) (pvs qvs : List (Point × α)) (p : Point) (v : α)
    (hnew : NewQuadTree b k d = some t0)
    (hseq : insertSeq t0 pvs = some t)
    (hins : t.Insert p v = .ok (t1, true))
    (hseq2 : insertSeq t1 qvs = some t2) :
    (⟨p, v⟩ : QElement α) ∈ t2.Select t2.bounds := by
  rw [NewQuadTree] at hnew
  have hwf0 := newQuadTree_WF hnew
  obtain ⟨hwf, -, -⟩ := insertSeq_mono hwf0 hseq
  rcases Insert_spec p v hwf with hp | ⟨t1', heq, hsw, hm⟩
  · rw [hins] at hp
    cases hp
  · have heq2 := heq.symm.trans hins
    injection heq2 with heq2
    injection heq2 with heq2a heq2b
    subst heq2a
    rw [heq2b, if_pos rfl] at hm
    have hmem : (⟨p, v⟩ : QElement α) ∈ elemsM t1' := by
      rw [hm]
      simp
    obtain ⟨hwf2, -, hle⟩ := insertSeq_mono hsw.2 hseq2
    have hmem2 := Multiset.mem_of_le hle hmem
    rw [Select_of_subRect hwf2 (SubRect.refl _)]
    simpa [elemsM] using hmem2

/-- Witness for C9 on a concrete depth-0 tree: insert `(0,0)↦5`, then
`(1,1)↦6`; the full-bounds select still contains `(0,0)↦5`. -/
theorem c9_inserted_element_persists_witness :
    (⟨⟨0, 0⟩, 5⟩ : QElement Nat) ∈
      (QTree.mk 1 none 0 [⟨⟨0, 0⟩, 5⟩, ⟨⟨1, 1⟩, 6⟩]
        (⟨⟨0, 0⟩, ⟨2, 2⟩⟩ : Rect) : QTree Nat).Select
        (QTree.mk 1 none 0 [⟨⟨0, 0⟩, 5⟩, ⟨⟨1, 1⟩, 6⟩]
          (⟨⟨0, 0⟩, ⟨2, 2⟩⟩ : Rect) : QTree Nat).bounds :=
  c9_inserted_element_persists (⟨⟨0, 0⟩, ⟨2, 2⟩⟩ : Rect) 1 0
    (QTree.mk 1 none 0 [] ⟨⟨0, 0⟩, ⟨2, 2⟩⟩)
    (QTree.mk 1 none 0 [] ⟨⟨0, 0⟩, ⟨2, 2⟩⟩)
    (QTree.mk 1 none 0 [⟨⟨0, 0⟩, 5⟩] ⟨⟨0, 0⟩, ⟨2, 2⟩⟩)
    (QTree.mk 1 none 0 [⟨⟨0, 0⟩, 5⟩, ⟨⟨1, 1⟩, 6⟩] ⟨⟨0, 0⟩, ⟨2, 2⟩⟩)
    [] [(⟨1, 1⟩, 6)] ⟨0, 0⟩ 5 rfl rfl rfl rfl

end Quadtree
